import Mathlib

/-
Verification of the registration and coordinate-calibration engine of the
PhD_scripts repository.

Shallow embedding of the relevant functions of
  src/automation/calibration/beam_shift_main.py   and
  src/automation/tiling/main.py.

Modelling conventions:
* Frames (pixel arrays) carry machine-representable sample values; they are
  embedded with rational entries so that every array computation is
  executable and decidable.
* The coordinate transforms and the signed-angle helper use trigonometric
  functions, so they are embedded over the real numbers; exact real equality
  stands in for the floating-point tolerance of the specification.
* A numpy 2-vector [[x], [y]] (a 2x1 column array) is embedded as the pair
  (x, y); the Point structure of the microscope client is likewise a pair.
* numpy float division by zero does not raise: 0.0/0.0 silently produces
  NaN, which then propagates.  The value NaN is modelled explicitly by the
  PyFloat type below.
-/

open Real

/-- Result type of the numpy floating-point pipeline in
`calculate_signed_angle_between_vectors`: either an ordinary (finite) value
or the silent invalid-value marker NaN. -/
inductive PyFloat where
  | finite (x : ℝ)
  | nan

/-- `image_to_beam_shift` from src/automation/calibration/beam_shift_main.py.
Scales the pixel vector by `pixel_size`, applies the 2x2 rotation matrix for
`angle_deg` (converted to radians), and negates the resulting y-component
(`reflection_factor = -1`). -/
noncomputable def image_to_beam_shift (px_col_vector_xy : ℝ × ℝ)
    (pixel_size : ℝ) (angle_deg : ℝ) : ℝ × ℝ :=
  let θ := angle_deg * (Real.pi / 180)
  let vector_meters := (px_col_vector_xy.1 * pixel_size, px_col_vector_xy.2 * pixel_size)
  let transformed_vector :=
    (Real.cos θ * vector_meters.1 - Real.sin θ * vector_meters.2,
     Real.sin θ * vector_meters.1 + Real.cos θ * vector_meters.2)
  (transformed_vector.1, transformed_vector.2 * (-1))

/-- `beam_to_image_shift` from src/automation/calibration/beam_shift_main.py.
Negates the y-component back, applies the transposed rotation matrix, and
divides by `pixel_size`. -/
noncomputable def beam_to_image_shift (beam_shift_col_vector_xy : ℝ × ℝ)
    (pixel_size : ℝ) (angle_deg : ℝ) : ℝ × ℝ :=
  let θ := angle_deg * (Real.pi / 180)
  let beam_shift_vector_refl :=
    (beam_shift_col_vector_xy.1, beam_shift_col_vector_xy.2 * (-1))
  let vector_meters :=
    (Real.cos θ * beam_shift_vector_refl.1 + Real.sin θ * beam_shift_vector_refl.2,
     -Real.sin θ * beam_shift_vector_refl.1 + Real.cos θ * beam_shift_vector_refl.2)
  (vector_meters.1 / pixel_size, vector_meters.2 / pixel_size)

/-- `calculate_signed_angle_between_vectors` from
src/automation/calibration/beam_shift_main.py.

The numpy code computes `dot/(|v1|*|v2|)`, clips it to [-1, 1], takes arccos,
negates the angle when the 2-D cross product is negative, and converts to
degrees.  When `|v1|*|v2| = 0` the dot product is also 0 (a zero vector is
orthogonal to everything), so the division is 0.0/0.0, which numpy evaluates
to NaN with only a RuntimeWarning; the NaN then propagates unchanged through
`np.clip`, `np.arccos`, the comparison `cross_product < 0` (False for NaN)
and `np.degrees`, so the function returns NaN.  That branch is made explicit
here. -/
noncomputable def calculate_signed_angle_between_vectors
    (vec1 vec2 : ℝ × ℝ) : PyFloat :=
  let dot_product := vec1.1 * vec2.1 + vec1.2 * vec2.2
  let magnitude_vec1 := Real.sqrt (vec1.1 ^ 2 + vec1.2 ^ 2)
  let magnitude_vec2 := Real.sqrt (vec2.1 ^ 2 + vec2.2 ^ 2)
  if magnitude_vec1 * magnitude_vec2 = 0 then PyFloat.nan
  else
    let cos_theta := dot_product / (magnitude_vec1 * magnitude_vec2)
    let cos_theta_clipped := min 1 (max (-1) cos_theta)
    let angle_radians := Real.arccos cos_theta_clipped
    let cross_product := vec1.1 * vec2.2 - vec1.2 * vec2.1
    let signed_radians := if cross_product < 0 then -angle_radians else angle_radians
    PyFloat.finite (signed_radians * (180 / Real.pi))

/-- Row-major flattening of a 2-D array, as numpy stores it (C order): flat
index `k` corresponds to row `k / C` and column `k % C`. -/
def flattenQ {R C : ℕ} (g : Fin R → Fin C → ℚ) (k : Fin (R * C)) : ℚ :=
  g ⟨k.val / C, by
      have h := k.isLt
      exact Nat.div_lt_of_lt_mul (lt_of_lt_of_eq h (Nat.mul_comm R C))⟩
    ⟨k.val % C, by
      have h := k.isLt
      have hC : 0 < C := by
        rcases Nat.eq_zero_or_pos C with h0 | h0
        · subst h0; simp at h
        · exact h0
      exact Nat.mod_lt _ hC⟩

/-- `np.argmax` on a flat array: index of the first occurrence (lowest index)
of the maximum value.  `np.argmax` raises on an empty array, hence the
positivity argument. -/
def np_argmax {n : ℕ} (g : Fin n → ℚ) (hn : 0 < n) : Fin n :=
  (Finset.univ.filter (fun k => ∀ m, g m ≤ g k)).min' (by
    obtain ⟨k, -, hk⟩ :=
      Finset.exists_max_image Finset.univ g ⟨⟨0, hn⟩, Finset.mem_univ _⟩
    exact ⟨k, Finset.mem_filter.mpr ⟨Finset.mem_univ _, fun m => hk m (Finset.mem_univ m)⟩⟩)

/-- Zero extension of a `kr × kc` template to all of ℤ × ℤ.  Outside the
index box the template contributes 0 to correlation sums, exactly as
`scipy.signal.correlate2d` pads with `fillvalue=0`. -/
def Tz {kr kc : ℕ} (T : Fin kr → Fin kc → ℚ) (x y : ℤ) : ℚ :=
  if hx : 0 ≤ x ∧ x < kr then
    if hy : 0 ≤ y ∧ y < kc then T ⟨x.toNat, by omega⟩ ⟨y.toNat, by omega⟩ else 0
  else 0

/-- The integer index box `[0, kr) × [0, kc)` supporting a template. -/
def boxI (kr kc : ℕ) : Finset (ℤ × ℤ) :=
  Finset.Ico (0 : ℤ) kr ×ˢ Finset.Ico (0 : ℤ) kc

/-- Autocorrelation of the zero-extended template at integer lag `d`. -/
def autocorr {kr kc : ℕ} (T : Fin kr → Fin kc → ℚ) (d : ℤ × ℤ) : ℚ :=
  ∑ x ∈ boxI kr kc, Tz T x.1 x.2 * Tz T (x.1 - d.1) (x.2 - d.2)

/-- Full-mode 2-D cross-correlation surface of
`scipy.signal.correlate2d(current_im, template, mode='full')`: output entry
`(u, v)` is the correlation of the image with the template shifted by the lag
`(u - (kr - 1), v - (kc - 1))`, the template being zero-padded outside its
support. -/
def corrFull {mr mc kr kc : ℕ} (S : Fin mr → Fin mc → ℚ)
    (T : Fin kr → Fin kc → ℚ) :
    Fin (mr + kr - 1) → Fin (mc + kc - 1) → ℚ :=
  fun u v => ∑ i : Fin mr, ∑ j : Fin mc,
    S i j * Tz T ((i : ℤ) - ((u : ℤ) - ((kr : ℤ) - 1)))
                 ((j : ℤ) - ((v : ℤ) - ((kc : ℤ) - 1)))

/-- `compute_translation_vector` from
src/automation/calibration/beam_shift_main.py: full-mode cross-correlation,
`np.unravel_index(np.argmax(correlation), correlation.shape)` for the peak
(first occurrence in row-major order on ties), subtraction of the centre
`np.array(correlation.shape) // 2`, and the final `[::-1]` flip from (row,
column) to (x, y).  `np.argmax` raises `ValueError` on an empty correlation
surface, modelled by `none`. -/
def compute_translation_vector {mr mc kr kc : ℕ} (current_im : Fin mr → Fin mc → ℚ)
    (template : Fin kr → Fin kc → ℚ) : Option (ℤ × ℤ) :=
  if h : 0 < (mr + kr - 1) * (mc + kc - 1) then
    let peak := np_argmax (flattenQ (corrFull current_im template)) h
    let peak_row := peak.val / (mc + kc - 1)
    let peak_col := peak.val % (mc + kc - 1)
    some (((peak_col : ℤ) - (((mc + kc - 1) / 2 : ℕ) : ℤ),
           (peak_row : ℤ) - (((mr + kr - 1) / 2 : ℕ) : ℤ)))
  else none

/-- Synthetic search image for the displacement-estimator property: the
template embedded noise-free with its top-left sample at row `pr`, column
`pc` of an otherwise zero `mr × mc` canvas.  (Test-input constructor taken
from the specification's synthetic-data property; the estimator itself is
`compute_translation_vector` above.) -/
def embed_template {mr mc kr kc : ℕ} (T : Fin kr → Fin kc → ℚ) (pr pc : ℕ) :
    Fin mr → Fin mc → ℚ :=
  fun i j => Tz T ((i : ℤ) - pr) ((j : ℤ) - pc)

/-- `cross_correlate` from src/automation/tiling/main.py: valid-mode
2-D cross-correlation (`scipy.signal.correlate2d(image, template,
mode="valid")`, output shape `(mr - kr + 1, mc - kc + 1)`) followed by
`np.unravel_index(np.argmax(corr_map), corr_map.shape)`.  Valid mode
requires the image to be at least as large as the template in both axes;
otherwise scipy raises, modelled by `none`.  The peak index is returned as
(row, column), not flipped.  The valid-mode correlation surface itself is
`corrValid`; entry `(u, v)` correlates the template with the image window
whose top-left corner is `(u, v)`. -/
def corrValid {mr mc kr kc : ℕ} (image : Fin mr → Fin mc → ℚ)
    (template : Fin kr → Fin kc → ℚ) (h : kr ≤ mr ∧ kc ≤ mc) :
    Fin (mr - kr + 1) → Fin (mc - kc + 1) → ℚ := fun u v =>
  ∑ a : Fin kr, ∑ b : Fin kc,
    image ⟨u.val + a.val, by have hu := u.isLt; have ha := a.isLt; omega⟩
          ⟨v.val + b.val, by have hv := v.isLt; have hb := b.isLt; omega⟩
      * template a b

def cross_correlate {mr mc kr kc : ℕ} (image : Fin mr → Fin mc → ℚ)
    (template : Fin kr → Fin kc → ℚ) : Option (ℕ × ℕ) :=
  if h : kr ≤ mr ∧ kc ≤ mc then
    let peak := np_argmax (flattenQ (corrValid image template h))
      (Nat.mul_pos (Nat.succ_pos _) (Nat.succ_pos _))
    some (peak.val / (mc - kc + 1), peak.val % (mc - kc + 1))
  else none

/-- `bin_image` from src/automation/calibration/beam_shift_main.py (the copy
in src/automation/tiling/main.py is identical).  The code reshapes the flat
data of the `N × N` image into shape `(256, bin_factor, 256, bin_factor)`,
sums over axes 1 and 3, and divides by `bin_factor²`.  numpy's reshape
demands that the total number of samples be unchanged, i.e.
`N * N = (256 * bin_factor) * (256 * bin_factor)`; otherwise it raises
`ValueError` (the docstring's "assumes constant image size of 1024"),
modelled by `none`.  In C order, 4-D index `(i, a, j, b)` of that shape reads
flat element `(i*bin_factor + a) * (256*bin_factor) + (j*bin_factor + b)`. -/
def bin_image {N : ℕ} (image : Fin N → Fin N → ℚ) (bin_factor : ℕ) :
    Option (Fin 256 → Fin 256 → ℚ) :=
  if h : N * N = (256 * bin_factor) * (256 * bin_factor) then
    some (fun i j =>
      (∑ a : Fin bin_factor, ∑ b : Fin bin_factor,
        flattenQ image ⟨(i.val * bin_factor + a.val) * (256 * bin_factor)
            + (j.val * bin_factor + b.val), by
          rw [h]
          have hi := i.isLt; have ha := a.isLt
          have hj := j.isLt; have hb := b.isLt
          have h1 : i.val * bin_factor + a.val < 256 * bin_factor := by
            calc i.val * bin_factor + a.val
                < i.val * bin_factor + bin_factor := by omega
              _ = (i.val + 1) * bin_factor := by ring
              _ ≤ 256 * bin_factor := Nat.mul_le_mul_right _ (by omega)
          have h2 : j.val * bin_factor + b.val < 256 * bin_factor := by
            calc j.val * bin_factor + b.val
                < j.val * bin_factor + bin_factor := by omega
              _ = (j.val + 1) * bin_factor := by ring
              _ ≤ 256 * bin_factor := Nat.mul_le_mul_right _ (by omega)
          calc (i.val * bin_factor + a.val) * (256 * bin_factor)
                  + (j.val * bin_factor + b.val)
              < (i.val * bin_factor + a.val) * (256 * bin_factor)
                  + 256 * bin_factor := by omega
            _ = (i.val * bin_factor + a.val + 1) * (256 * bin_factor) := by ring
            _ ≤ (256 * bin_factor) * (256 * bin_factor) :=
                Nat.mul_le_mul_right _ (by omega)⟩)
        / ((bin_factor : ℚ) * (bin_factor : ℚ)))
  else none

/-- The specification's description of binning ("reshapes the grid into
`factor × factor` blocks, sums each block, and divides by `factor²`"), stated
directly as block mean pooling; to be compared with `bin_image` above. -/
def bin_image_spec (f : ℕ) (img : Fin (256 * f) → Fin (256 * f) → ℚ) :
    Fin 256 → Fin 256 → ℚ :=
  fun i j =>
    (∑ a : Fin f, ∑ b : Fin f,
      img ⟨i.val * f + a.val, by
            have hi := i.isLt; have ha := a.isLt
            calc i.val * f + a.val < i.val * f + f := by omega
              _ = (i.val + 1) * f := by ring
              _ ≤ 256 * f := Nat.mul_le_mul_right _ (by omega)⟩
          ⟨j.val * f + b.val, by
            have hj := j.isLt; have hb := b.isLt
            calc j.val * f + b.val < j.val * f + f := by omega
              _ = (j.val + 1) * f := by ring
              _ ≤ 256 * f := Nat.mul_le_mul_right _ (by omega)⟩)
      / ((f : ℚ) * (f : ℚ))

/-- The correction sub-loop of src/automation/tiling/main.py (lines 155-239):

    correction_attempts = 0
    while True:
        ... cross-correlate the current re-acquisition against the
        previous tile's template ...
        if within tolerance: break
        ... corrective piezo moves, re-acquire, replace stored tile ...
        correction_attempts += 1
        if correction_attempts == 10: break

`withinTol n` is the outcome of the tolerance test computed from the n-th
acquisition of the tile (n = 0 is the original acquisition; acquisition n is
the one kept after n corrective moves) — the "stub acquisition" of the
specification's bounded-retries property.  `n` counts the corrective moves
performed so far, and the returned value is both the total number of
correction attempts and the index of the acquisition finally kept.  The fuel
argument makes the recursion structural; the initial call provides fuel 10,
which the `correction_attempts == 10` exit never exhausts. -/
def subLoopGo (withinTol : ℕ → Bool) : ℕ → ℕ → ℕ
  | 0, n => n
  | fuel + 1, n =>
    if withinTol n then n
    else if n + 1 = 10 then 10
    else subLoopGo withinTol fuel (n + 1)

/-- Number of correction attempts performed by one run of the tile
correction sub-loop (equals the index of the acquisition kept when the loop
exits). -/
def tileCorrectionAttempts (withinTol : ℕ → Bool) : ℕ :=
  subLoopGo withinTol 10 0

/-- Observable collaborator actions of the tiling loop of
src/automation/tiling/main.py: commanding the stage to the desired absolute
position for tile (row i, column j), acquiring tile (i, j), and entering the
correction sub-loop whose template seam belongs to tile (i, j). -/
inductive TileEvent where
  | stageMove (i j : ℕ)
  | acquireTile (i j : ℕ)
  | seamCorrection (i j : ℕ)
  deriving DecidableEq

/-- Trace of one iteration of the row loop `for i in range(NO_ROWS_TO_TILE)`
with `C = NO_COLS_TO_TILE`: the column loop moves the stage and acquires for
every column, and afterwards — at the indentation level of the row loop, not
of the column loop — `if j > 0:` runs the correction sub-loop once, with the
loop variable `j` holding its final value `C - 1`, on the seam between the
last two images of the row. -/
def rowTrace (i C : ℕ) : List TileEvent :=
  ((List.range C).map
    (fun j => [TileEvent.stageMove i j, TileEvent.acquireTile i j])).flatten
    ++ (if 0 < C - 1 then [TileEvent.seamCorrection i (C - 1)] else [])

/-- Trace of the full tiling loop for `R = NO_ROWS_TO_TILE` rows and
`C = NO_COLS_TO_TILE` columns.  When `C = 0` and `R > 0` the statement
`if j > 0:` reads the loop variable of a `for` loop that never ran, raising
`NameError`; modelled by `none`. -/
def tileTrace (R C : ℕ) : Option (List TileEvent) :=
  if C = 0 ∧ 0 < R then none
  else some ((List.range R).map (fun i => rowTrace i C)).flatten

/-! ### Theorems -/

/-- Claim C1: for every 2-component pixel displacement vector `v`, every
pixel size `s > 0`, and every angle `a` (degrees), composing the forward
coordinate transform with the inverse transform returns the original vector:
`beam_to_image_shift (image_to_beam_shift v s a) s a = v` (exact equality
over ℝ, standing in for the floating-point tolerance). -/
theorem beam_shift_round_trip (v : ℝ × ℝ) (s a : ℝ) (hs : 0 < s) :
    beam_to_image_shift (image_to_beam_shift v s a) s a = v := by
  obtain ⟨x, y⟩ := v
  have hpyth := Real.sin_sq_add_cos_sq (a * (Real.pi / 180))
  have hs' : s ≠ 0 := ne_of_gt hs
  simp only [image_to_beam_shift, beam_to_image_shift, Prod.mk.injEq]
  constructor
  · rw [div_eq_iff hs']
    linear_combination (x * s) * hpyth
  · rw [div_eq_iff hs']
    linear_combination (y * s) * hpyth

/-- Witness for C1 at `v = (2, 3)`, `s = 1`, `a = 37`. -/
theorem beam_shift_round_trip_witness :
    (0 : ℝ) < 1 ∧
      beam_to_image_shift (image_to_beam_shift (2, 3) 1 37) 1 37 = ((2 : ℝ), (3 : ℝ)) :=
  ⟨by norm_num, beam_shift_round_trip (2, 3) 1 37 (by norm_num)⟩

/-- Claim C8: at angle 0 the forward transform scales by the pixel size and
negates only the y-component: `image_to_beam_shift v s 0 = (s * v.1, -(s * v.2))`. -/
theorem image_to_beam_shift_zero_angle (v : ℝ × ℝ) (s : ℝ) (_hs : 0 < s) :
    image_to_beam_shift v s 0 = (s * v.1, -(s * v.2)) := by
  simp only [image_to_beam_shift, zero_mul, Real.cos_zero, Real.sin_zero,
    Prod.mk.injEq]
  constructor <;> ring

/-- Witness for C8 at `v = (5, 7)`, `s = 2`. -/
theorem image_to_beam_shift_zero_angle_witness :
    (0 : ℝ) < 2 ∧
      image_to_beam_shift (5, 7) 2 0 = ((2 : ℝ) * 5, -((2 : ℝ) * 7)) :=
  ⟨by norm_num, image_to_beam_shift_zero_angle (5, 7) 2 (by norm_num)⟩

/-- Claim C7: `calculate_signed_angle_between_vectors (1,0) (0,1) = +90°` and
`calculate_signed_angle_between_vectors (1,0) (0,-1) = -90°`: the sign
follows the 2-D cross product and the magnitude is the clamped arccosine of
the normalised dot product. -/
theorem signed_angle_sign_convention :
    calculate_signed_angle_between_vectors (1, 0) (0, 1) = PyFloat.finite 90 ∧
    calculate_signed_angle_between_vectors (1, 0) (0, -1) = PyFloat.finite (-90) := by
  have hπ := Real.pi_ne_zero
  constructor
  · simp only [calculate_signed_angle_between_vectors]
    norm_num [Real.sqrt_one]
    field_simp
    ring
  · simp only [calculate_signed_angle_between_vectors]
    norm_num [Real.sqrt_one]
    field_simp
    ring

/-- The Euclidean magnitude of a nonzero 2-vector is positive. -/
theorem magnitude_pos_of_ne_zero (w : ℝ × ℝ) (hw : w ≠ (0, 0)) :
    0 < Real.sqrt (w.1 ^ 2 + w.2 ^ 2) := by
  apply Real.sqrt_pos.mpr
  rcases eq_or_ne w.1 0 with h | h
  · rcases eq_or_ne w.2 0 with h2 | h2
    · exact absurd (by rw [Prod.ext_iff]; exact ⟨h, h2⟩) hw
    · have hp : 0 < w.2 ^ 2 :=
        (sq_nonneg w.2).lt_of_ne (fun e => h2 (sq_eq_zero_iff.mp e.symm))
      nlinarith [sq_nonneg w.1]
  · have hp : 0 < w.1 ^ 2 :=
      (sq_nonneg w.1).lt_of_ne (fun e => h (sq_eq_zero_iff.mp e.symm))
    nlinarith [sq_nonneg w.2]

/-- Claim C10: for nonzero input vectors the returned signed angle is a
finite value in the closed interval [-180, 180] degrees. -/
theorem signed_angle_range (v1 v2 : ℝ × ℝ) (h1 : v1 ≠ (0, 0)) (h2 : v2 ≠ (0, 0)) :
    ∃ r : ℝ, calculate_signed_angle_between_vectors v1 v2 = PyFloat.finite r ∧
      -180 ≤ r ∧ r ≤ 180 := by
  have hm : 0 < Real.sqrt (v1.1 ^ 2 + v1.2 ^ 2) * Real.sqrt (v2.1 ^ 2 + v2.2 ^ 2) :=
    mul_pos (magnitude_pos_of_ne_zero v1 h1) (magnitude_pos_of_ne_zero v2 h2)
  simp only [calculate_signed_angle_between_vectors, if_neg (ne_of_gt hm)]
  have hθ1 : 0 ≤ Real.arccos (min 1 (max (-1)
      ((v1.1 * v2.1 + v1.2 * v2.2) /
        (Real.sqrt (v1.1 ^ 2 + v1.2 ^ 2) * Real.sqrt (v2.1 ^ 2 + v2.2 ^ 2))))) :=
    Real.arccos_nonneg _
  have hθ2 : Real.arccos (min 1 (max (-1)
      ((v1.1 * v2.1 + v1.2 * v2.2) /
        (Real.sqrt (v1.1 ^ 2 + v1.2 ^ 2) * Real.sqrt (v2.1 ^ 2 + v2.2 ^ 2))))) ≤ Real.pi :=
    Real.arccos_le_pi _
  have h180 : (0 : ℝ) < 180 / Real.pi := by positivity
  have hπ : Real.pi * (180 / Real.pi) = 180 := by
    field_simp
  by_cases hcr : v1.1 * v2.2 - v1.2 * v2.1 < 0
  · rw [if_pos hcr]
    refine ⟨_, rfl, ?_, ?_⟩
    · have hb : Real.arccos _ * (180 / Real.pi) ≤ Real.pi * (180 / Real.pi) :=
        mul_le_mul_of_nonneg_right hθ2 (le_of_lt h180)
      rw [hπ] at hb
      linarith
    · have hb : 0 ≤ Real.arccos _ * (180 / Real.pi) :=
        mul_nonneg hθ1 (le_of_lt h180)
      linarith
  · rw [if_neg hcr]
    refine ⟨_, rfl, ?_, ?_⟩
    · have hb : 0 ≤ Real.arccos _ * (180 / Real.pi) :=
        mul_nonneg hθ1 (le_of_lt h180)
      linarith
    · have hb : Real.arccos _ * (180 / Real.pi) ≤ Real.pi * (180 / Real.pi) :=
        mul_le_mul_of_nonneg_right hθ2 (le_of_lt h180)
      rw [hπ] at hb
      linarith

/-- Witness for C10 at `v1 = (3, 4)`, `v2 = (-2, 5)`. -/
theorem signed_angle_range_witness :
    ((3 : ℝ), (4 : ℝ)) ≠ (0, 0) ∧
      ∃ r : ℝ, calculate_signed_angle_between_vectors (3, 4) (-2, 5) = PyFloat.finite r ∧
        -180 ≤ r ∧ r ≤ 180 :=
  ⟨by norm_num [Prod.ext_iff], signed_angle_range (3, 4) (-2, 5)
    (by norm_num [Prod.ext_iff]) (by norm_num [Prod.ext_iff])⟩

/-- Claim C6 counterexample: called on a zero-magnitude first vector the
function does not fail with an error at all — the numpy pipeline completes
normally and silently returns NaN (division 0.0/0.0 plus NaN propagation),
refuting "fails explicitly with a specific, distinguishable error". -/
theorem signed_angle_zero_vector_counterexample :
    calculate_signed_angle_between_vectors (0, 0) (1, 0) = PyFloat.nan := by
  norm_num [calculate_signed_angle_between_vectors]

/-- Claim C6 (amended): on a zero-magnitude input vector the function
silently returns NaN (no exception is raised; numpy only emits a
RuntimeWarning), and NaN is distinguishable from every finite angle — in
particular the function never returns the default value 0. -/
theorem signed_angle_zero_vector_nan (v1 v2 : ℝ × ℝ)
    (h : v1 = (0, 0) ∨ v2 = (0, 0)) :
    calculate_signed_angle_between_vectors v1 v2 = PyFloat.nan ∧
      ∀ r : ℝ, PyFloat.nan ≠ PyFloat.finite r := by
  constructor
  · rcases h with h | h <;> subst h <;>
      norm_num [calculate_signed_angle_between_vectors]
  · intro r hr
    exact PyFloat.noConfusion hr

/-- Witness for the amended C6 at `v1 = (0,0)`, `v2 = (0,1)`. -/
theorem signed_angle_zero_vector_nan_witness :
    (((0 : ℝ), (0 : ℝ)) = (0, 0) ∨ ((0 : ℝ), (1 : ℝ)) = (0, 0)) ∧
      (calculate_signed_angle_between_vectors (0, 0) (0, 1) = PyFloat.nan ∧
        ∀ r : ℝ, PyFloat.nan ≠ PyFloat.finite r) :=
  ⟨Or.inl rfl, signed_angle_zero_vector_nan (0, 0) (0, 1) (Or.inl rfl)⟩

/-- Auxiliary invariant for the correction sub-loop: when the tolerance test
never passes, the loop counts up to the retry budget of 10 and stops there. -/
theorem subLoopGo_never_converges (withinTol : ℕ → Bool)
    (h : ∀ n, withinTol n = false) :
    ∀ fuel n, n + fuel = 10 → subLoopGo withinTol fuel n = 10 := by
  intro fuel
  induction fuel with
  | zero =>
    intro n hn
    simp only [subLoopGo]
    omega
  | succ f ih =>
    intro n hn
    rw [subLoopGo, h n]
    simp only [Bool.false_eq_true, if_false]
    by_cases hn10 : n + 1 = 10
    · rw [if_pos hn10]
    · rw [if_neg hn10]
      exact ih (n + 1) (by omega)

/-- Claim C5: if every acquisition yields a tolerance test that fails (the
correlation peak stays outside the 5-px-per-component acceptance window),
the tile correction sub-loop performs exactly the configured retry budget of
10 correction attempts and then terminates; the returned value is also the
index of the (last) acquisition kept.  Termination for every input is
inherent in `tileCorrectionAttempts` being a total function. -/
theorem tile_correction_retry_budget (withinTol : ℕ → Bool)
    (h : ∀ n, withinTol n = false) : tileCorrectionAttempts withinTol = 10 :=
  subLoopGo_never_converges withinTol h 10 0 rfl

/-- Witness for C5: the stub tolerance test that never passes. -/
theorem tile_correction_retry_budget_witness :
    (∀ n : ℕ, (fun _ : ℕ => false) n = false) ∧
      tileCorrectionAttempts (fun _ => false) = 10 :=
  ⟨fun _ => rfl, tile_correction_retry_budget (fun _ => false) (fun _ => rfl)⟩

/-- Claim C4 counterexample: with 1 row and 3 columns the loop acquires the
whole row first and runs only one correction sub-loop afterwards (for the
seam of the last tile, column 2): tile (0, 1) is never followed by a
correction sub-loop of its own — `seamCorrection 0 1` does not occur in the
trace at all, refuting "for every column index j > 0 ... then enters the
correction sub-loop for that tile's seam before moving on to the next
tile". -/
theorem tile_correction_not_per_tile_counterexample :
    tileTrace 1 3 =
      some [TileEvent.stageMove 0 0, TileEvent.acquireTile 0 0,
            TileEvent.stageMove 0 1, TileEvent.acquireTile 0 1,
            TileEvent.stageMove 0 2, TileEvent.acquireTile 0 2,
            TileEvent.seamCorrection 0 2] ∧
    TileEvent.seamCorrection 0 1 ∉
      [TileEvent.stageMove 0 0, TileEvent.acquireTile 0 0,
       TileEvent.stageMove 0 1, TileEvent.acquireTile 0 1,
       TileEvent.stageMove 0 2, TileEvent.acquireTile 0 2,
       TileEvent.seamCorrection 0 2] := by
  constructor
  · rfl
  · decide

/-- Claim C4 (amended): the correction sub-loop runs once per row, after the
row's last tile, on the seam of the row's last two tiles.  With the
configured `NO_COLS_TO_TILE = 2` this coincides with the claimed behaviour:
every tile beyond the first in a row (there is exactly one, column 1) is
stage-moved to, acquired, and then its seam correction sub-loop is entered,
before anything happens for the next tile. -/
theorem tile_row_correction_at_config (R i : ℕ) (hi : i < R) :
    ∃ L l1 l2, tileTrace R 2 = some L ∧
      L = l1 ++ ([TileEvent.stageMove i 1, TileEvent.acquireTile i 1,
                  TileEvent.seamCorrection i 1] ++ l2) := by
  induction R with
  | zero => omega
  | succ n ih =>
    have trace_eq : ∀ m : ℕ, tileTrace m 2 =
        some ((List.range m).map (fun r => rowTrace r 2)).flatten := by
      intro m
      rw [tileTrace, if_neg (by omega)]
    have row_eq : ∀ r : ℕ, rowTrace r 2 =
        [TileEvent.stageMove r 0, TileEvent.acquireTile r 0] ++
        ([TileEvent.stageMove r 1, TileEvent.acquireTile r 1,
          TileEvent.seamCorrection r 1] ++ []) := by
      intro r
      rfl
    have flatten_succ : ((List.range (n + 1)).map (fun r => rowTrace r 2)).flatten =
        ((List.range n).map (fun r => rowTrace r 2)).flatten ++ rowTrace n 2 := by
      rw [List.range_succ, List.map_append, List.flatten_append]
      simp
    rcases Nat.lt_succ_iff_lt_or_eq.mp hi with h | h
    · obtain ⟨L, l1, l2, hL, hsplit⟩ := ih h
      have hLval : L = ((List.range n).map (fun r => rowTrace r 2)).flatten :=
        (Option.some.inj ((trace_eq n).symm.trans hL)).symm
      refine ⟨_, l1, l2 ++ rowTrace n 2, trace_eq (n + 1), ?_⟩
      rw [flatten_succ, ← hLval, hsplit]
      simp [List.append_assoc]
    · subst h
      refine ⟨_, ((List.range i).map (fun r => rowTrace r 2)).flatten ++
        [TileEvent.stageMove i 0, TileEvent.acquireTile i 0], [],
        trace_eq (i + 1), ?_⟩
      rw [flatten_succ, row_eq i]
      simp [List.append_assoc]

/-- Witness for the amended C4 at `R = 1`, `i = 0`. -/
theorem tile_row_correction_at_config_witness :
    0 < 1 ∧
      ∃ L l1 l2, tileTrace 1 2 = some L ∧
        L = l1 ++ ([TileEvent.stageMove 0 1, TileEvent.acquireTile 0 1,
                    TileEvent.seamCorrection 0 1] ++ l2) :=
  ⟨Nat.one_pos, tile_row_correction_at_config 1 0 Nat.one_pos⟩

/-- Claim C9: when the image is at least as large as the template in both
axes, the valid-mode peak index returned by `cross_correlate` has both
components non-negative (they are naturals) and at most `image size -
template size`; consequently the tile loop's acceptance test
`abs(peak_index[0]) <= 5 and abs(peak_index[1]) <= 5` is equivalent to
`peak_index[0] <= 5 and peak_index[1] <= 5` — a comparison of the peak
against the top-left corner (0, 0) of the valid window. -/
theorem cross_correlate_peak_in_valid_window {mr mc kr kc : ℕ}
    (image : Fin mr → Fin mc → ℚ) (template : Fin kr → Fin kc → ℚ)
    (h1 : kr ≤ mr) (h2 : kc ≤ mc) :
    ∃ p : ℕ × ℕ, cross_correlate image template = some p ∧
      p.1 ≤ mr - kr ∧ p.2 ≤ mc - kc ∧
      ((|(p.1 : ℤ)| ≤ 5 ∧ |(p.2 : ℤ)| ≤ 5) ↔ ((p.1 : ℤ) ≤ 5 ∧ (p.2 : ℤ) ≤ 5)) := by
  rw [cross_correlate, dif_pos (And.intro h1 h2)]
  have hk := (np_argmax (flattenQ (corrValid image template (And.intro h1 h2)))
    (Nat.mul_pos (Nat.succ_pos _) (Nat.succ_pos _))).isLt
  refine ⟨_, rfl, ?_, ?_, ?_⟩
  · have := Nat.div_lt_of_lt_mul (lt_of_lt_of_eq hk
      (Nat.mul_comm (mr - kr + 1) (mc - kc + 1)))
    omega
  · have := Nat.mod_lt (np_argmax (flattenQ (corrValid image template
      (And.intro h1 h2))) (Nat.mul_pos (Nat.succ_pos _) (Nat.succ_pos _))).val
      (show 0 < mc - kc + 1 by omega)
    omega
  · rw [abs_of_nonneg (Int.natCast_nonneg _), abs_of_nonneg (Int.natCast_nonneg _)]

/-- Witness for C9 on a 1×1 image and 1×1 template. -/
theorem cross_correlate_peak_in_valid_window_witness :
    1 ≤ 1 ∧
      ∃ p : ℕ × ℕ,
        cross_correlate ((fun _ _ => 0) : Fin 1 → Fin 1 → ℚ)
            ((fun _ _ => 0) : Fin 1 → Fin 1 → ℚ) = some p ∧
          p.1 ≤ 1 - 1 ∧ p.2 ≤ 1 - 1 ∧
          ((|(p.1 : ℤ)| ≤ 5 ∧ |(p.2 : ℤ)| ≤ 5) ↔ ((p.1 : ℤ) ≤ 5 ∧ (p.2 : ℤ) ≤ 5)) :=
  ⟨le_rfl, cross_correlate_peak_in_valid_window (fun _ _ => 0) (fun _ _ => 0)
    le_rfl le_rfl⟩

/-- Claim C3 counterexample: 2 divides the side length 4, yet `bin_image` on
a 4×4 frame with factor 2 raises (numpy cannot reshape 16 samples into shape
(256, 2, 256, 2)) — the function is hard-wired to side length `256 *
bin_factor`, refuting "for every square frame of side length N and every bin
factor f such that f divides N". -/
theorem bin_image_non_1024_counterexample :
    (2 ∣ 4) ∧ bin_image ((fun _ _ => 1) : Fin 4 → Fin 4 → ℚ) 2 = none := by
  constructor
  · decide
  · rw [bin_image, dif_neg (by norm_num)]

/-- Claim C3 (amended): for every bin factor `f > 0` and every square frame
of the side length `256 * f` that `bin_image` is hard-wired to (1024 for the
configured `BIN_FACTOR = 4`), `bin_image` performs `f × f` block mean
pooling — it agrees with the specification's description `bin_image_spec` —
and in particular binning a uniform-valued frame yields the uniform frame of
the same value.  For side lengths other than `256 * f` the function raises
(see the counterexample), so the claim's "every N divisible by f"
precondition must be narrowed to `N = 256 * f`. -/
theorem bin_image_block_mean (f : ℕ) (hf : 0 < f)
    (img : Fin (256 * f) → Fin (256 * f) → ℚ) :
    bin_image img f = some (bin_image_spec f img) ∧
      ∀ c : ℚ, bin_image ((fun _ _ => c) : Fin (256 * f) → Fin (256 * f) → ℚ) f
        = some ((fun _ _ => c) : Fin 256 → Fin 256 → ℚ) := by
  have hN : 0 < 256 * f := by omega
  have key : ∀ g : Fin (256 * f) → Fin (256 * f) → ℚ,
      bin_image g f = some (bin_image_spec f g) := by
    intro g
    rw [bin_image, dif_pos rfl]
    congr 1
    funext i j
    rw [bin_image_spec]
    congr 1
    refine Finset.sum_congr rfl (fun a _ => Finset.sum_congr rfl (fun b _ => ?_))
    have hcol : j.val * f + b.val < 256 * f := by
      have hj := j.isLt; have hb := b.isLt
      calc j.val * f + b.val < j.val * f + f := by omega
        _ = (j.val + 1) * f := by ring
        _ ≤ 256 * f := Nat.mul_le_mul_right _ (by omega)
    have hdiv : ((i.val * f + a.val) * (256 * f) + (j.val * f + b.val)) / (256 * f)
        = i.val * f + a.val := by
      rw [Nat.add_comm, Nat.add_mul_div_right _ _ hN, Nat.div_eq_of_lt hcol]
      omega
    have hmod : ((i.val * f + a.val) * (256 * f) + (j.val * f + b.val)) % (256 * f)
        = j.val * f + b.val := by
      rw [Nat.add_comm, Nat.add_mul_mod_self_right]
      exact Nat.mod_eq_of_lt hcol
    rw [flattenQ]
    congr 1
    · exact Fin.ext hdiv
    · exact Fin.ext hmod
  refine ⟨key img, fun c => ?_⟩
  rw [key (fun _ _ => c)]
  congr 1
  funext i j
  rw [bin_image_spec]
  have hfQ : (f : ℚ) ≠ 0 := Nat.cast_ne_zero.mpr (by omega)
  simp only [Finset.sum_const, Finset.card_univ, Fintype.card_fin, smul_smul,
    nsmul_eq_mul]
  field_simp
  ring

/-- Witness for the amended C3 at `f = 1` on the zero frame. -/
theorem bin_image_block_mean_witness :
    0 < 1 ∧
      (bin_image ((fun _ _ => 0) : Fin (256 * 1) → Fin (256 * 1) → ℚ) 1
          = some (bin_image_spec 1 (fun _ _ => 0)) ∧
        ∀ c : ℚ, bin_image ((fun _ _ => c) : Fin (256 * 1) → Fin (256 * 1) → ℚ) 1
          = some ((fun _ _ => c) : Fin 256 → Fin 256 → ℚ)) :=
  ⟨Nat.one_pos, bin_image_block_mean 1 Nat.one_pos (fun _ _ => 0)⟩

/-- The zero-extended template vanishes outside its index box. -/
theorem Tz_eq_zero {kr kc : ℕ} (T : Fin kr → Fin kc → ℚ) (x y : ℤ)
    (h : ¬(0 ≤ x ∧ x < kr ∧ 0 ≤ y ∧ y < kc)) : Tz T x y = 0 := by
  rw [Tz]
  split_ifs with hx hy
  · exact absurd ⟨hx.1, hx.2, hy.1, hy.2⟩ h
  · rfl
  · rfl

/-- On template indices the zero extension agrees with the template. -/
theorem Tz_coe {kr kc : ℕ} (T : Fin kr → Fin kc → ℚ) (a : Fin kr) (b : Fin kc) :
    Tz T (a : ℤ) (b : ℤ) = T a b := by
  rw [Tz, dif_pos (by constructor <;> [positivity; exact_mod_cast a.isLt]),
    dif_pos (by constructor <;> [positivity; exact_mod_cast b.isLt])]
  congr 1

/-- Membership in the template index box, coordinatewise. -/
theorem mem_boxI {kr kc : ℕ} (z : ℤ × ℤ) :
    z ∈ boxI kr kc ↔ (0 ≤ z.1 ∧ z.1 < kr ∧ 0 ≤ z.2 ∧ z.2 < kc) := by
  rw [boxI, Finset.mem_product, Finset.mem_Ico, Finset.mem_Ico]
  tauto

/-- A sum over `Fin n` equals the sum over the integer interval `[0, n)`. -/
theorem sum_fin_Ico (n : ℕ) (f : ℤ → ℚ) :
    ∑ i : Fin n, f (i : ℤ) = ∑ x ∈ Finset.Ico (0 : ℤ) (n : ℤ), f x := by
  induction n with
  | zero => simp
  | succ m ih =>
    have hins : Finset.Ico (0 : ℤ) ((m : ℕ) + 1 : ℕ) =
        insert ((m : ℕ) : ℤ) (Finset.Ico (0 : ℤ) ((m : ℕ) : ℤ)) := by
      ext x
      simp only [Finset.mem_Ico, Finset.mem_insert]
      omega
    rw [Fin.sum_univ_castSucc, hins, Finset.sum_insert (by simp)]
    simp only [Fin.coe_castSucc, Fin.val_last]
    rw [ih]
    ring

/-- `autocorr` at lag 0 is the total energy of the template. -/
theorem autocorr_zero_lag {kr kc : ℕ} (T : Fin kr → Fin kc → ℚ) :
    autocorr T (0, 0) = ∑ z ∈ boxI kr kc, (Tz T z.1 z.2) ^ 2 := by
  rw [autocorr]
  exact Finset.sum_congr rfl (fun z _ => by rw [sq]; norm_num)

/-- Sums of squared template samples over any index set are bounded by the
template energy: samples outside the box vanish. -/
theorem sum_sq_le_energy {kr kc : ℕ} (T : Fin kr → Fin kc → ℚ)
    (s : Finset (ℤ × ℤ)) :
    ∑ z ∈ s, (Tz T z.1 z.2) ^ 2 ≤ ∑ z ∈ boxI kr kc, (Tz T z.1 z.2) ^ 2 := by
  rw [← Finset.sum_filter_add_sum_filter_not s (fun z => z ∈ boxI kr kc)]
  have h2 : ∑ z ∈ s.filter (fun z => ¬z ∈ boxI kr kc), (Tz T z.1 z.2) ^ 2 = 0 := by
    apply Finset.sum_eq_zero
    intro z hz
    have hz' := (Finset.mem_filter.mp hz).2
    rw [Tz_eq_zero T z.1 z.2 (by rw [← mem_boxI]; exact hz')]
    ring
  rw [h2, add_zero]
  exact Finset.sum_le_sum_of_subset_of_nonneg
    (fun z hz => (Finset.mem_filter.mp hz).2) (fun z _ _ => sq_nonneg _)

/-- The shifted squared samples sum to at most the template energy. -/
theorem shifted_sq_le_energy {kr kc : ℕ} (T : Fin kr → Fin kc → ℚ) (d : ℤ × ℤ) :
    ∑ z ∈ boxI kr kc, (Tz T (z.1 - d.1) (z.2 - d.2)) ^ 2 ≤
      ∑ z ∈ boxI kr kc, (Tz T z.1 z.2) ^ 2 := by
  have hinj : ∀ x ∈ boxI kr kc, ∀ y ∈ boxI kr kc,
      (x.1 - d.1, x.2 - d.2) = (y.1 - d.1, y.2 - d.2) → x = y := by
    intro x _ y _ h
    rw [Prod.ext_iff] at h ⊢
    obtain ⟨ha, hb⟩ := h
    exact ⟨by omega, by omega⟩
  have himg : ∑ z ∈ (boxI kr kc).image (fun z => (z.1 - d.1, z.2 - d.2)),
      (Tz T z.1 z.2) ^ 2 = ∑ z ∈ boxI kr kc, (Tz T (z.1 - d.1) (z.2 - d.2)) ^ 2 :=
    Finset.sum_image hinj
  rw [← himg]
  exact sum_sq_le_energy T _

/-- Cauchy–Schwarz-style bound: the autocorrelation is maximal at lag 0. -/
theorem autocorr_le_zero_lag {kr kc : ℕ} (T : Fin kr → Fin kc → ℚ) (d : ℤ × ℤ) :
    autocorr T d ≤ autocorr T (0, 0) := by
  have hpt : ∀ z ∈ boxI kr kc, Tz T z.1 z.2 * Tz T (z.1 - d.1) (z.2 - d.2) ≤
      ((Tz T z.1 z.2) ^ 2 + (Tz T (z.1 - d.1) (z.2 - d.2)) ^ 2) / 2 := by
    intro z _
    nlinarith [sq_nonneg (Tz T z.1 z.2 - Tz T (z.1 - d.1) (z.2 - d.2))]
  calc autocorr T d
      ≤ ∑ z ∈ boxI kr kc,
          ((Tz T z.1 z.2) ^ 2 + (Tz T (z.1 - d.1) (z.2 - d.2)) ^ 2) / 2 :=
        Finset.sum_le_sum hpt
    _ = (∑ z ∈ boxI kr kc, (Tz T z.1 z.2) ^ 2
          + ∑ z ∈ boxI kr kc, (Tz T (z.1 - d.1) (z.2 - d.2)) ^ 2) / 2 := by
        rw [← Finset.sum_add_distrib, ← Finset.sum_div]
    _ ≤ (∑ z ∈ boxI kr kc, (Tz T z.1 z.2) ^ 2
          + ∑ z ∈ boxI kr kc, (Tz T z.1 z.2) ^ 2) / 2 := by
        have := shifted_sq_le_energy T d
        linarith
    _ = autocorr T (0, 0) := by
        rw [autocorr_zero_lag]
        ring

/-- Strictness: for a nonzero template the autocorrelation at any nonzero lag
is strictly below the lag-0 energy.  Equality would force the zero-extended
template to be `d`-periodic on its box, and iterating the period walks any
nonzero sample out of the finite box, a contradiction. -/
theorem autocorr_lt_zero_lag {kr kc : ℕ} (T : Fin kr → Fin kc → ℚ) (d : ℤ × ℤ)
    (hd : d ≠ (0, 0)) (hT : ∃ a b, T a b ≠ 0) :
    autocorr T d < autocorr T (0, 0) := by
  refine lt_of_le_of_ne (autocorr_le_zero_lag T d) (fun heq => ?_)
  have hpt : ∀ z ∈ boxI kr kc, Tz T z.1 z.2 * Tz T (z.1 - d.1) (z.2 - d.2) ≤
      ((Tz T z.1 z.2) ^ 2 + (Tz T (z.1 - d.1) (z.2 - d.2)) ^ 2) / 2 := by
    intro z _
    nlinarith [sq_nonneg (Tz T z.1 z.2 - Tz T (z.1 - d.1) (z.2 - d.2))]
  have hmid_le : ∑ z ∈ boxI kr kc,
      ((Tz T z.1 z.2) ^ 2 + (Tz T (z.1 - d.1) (z.2 - d.2)) ^ 2) / 2 ≤
      autocorr T (0, 0) := by
    have hsh := shifted_sq_le_energy T d
    rw [autocorr_zero_lag, ← Finset.sum_div, Finset.sum_add_distrib]
    linarith
  have hsum_eq : autocorr T d = ∑ z ∈ boxI kr kc,
      ((Tz T z.1 z.2) ^ 2 + (Tz T (z.1 - d.1) (z.2 - d.2)) ^ 2) / 2 := by
    have h1 : autocorr T d ≤ ∑ z ∈ boxI kr kc,
        ((Tz T z.1 z.2) ^ 2 + (Tz T (z.1 - d.1) (z.2 - d.2)) ^ 2) / 2 :=
      Finset.sum_le_sum hpt
    have h2 := hmid_le
    rw [← heq] at h2
    linarith
  have hpointeq : ∀ z ∈ boxI kr kc,
      Tz T z.1 z.2 * Tz T (z.1 - d.1) (z.2 - d.2) =
        ((Tz T z.1 z.2) ^ 2 + (Tz T (z.1 - d.1) (z.2 - d.2)) ^ 2) / 2 :=
    (Finset.sum_eq_sum_iff_of_le hpt).mp hsum_eq
  have hper : ∀ x y : ℤ, Tz T x y ≠ 0 → Tz T (x - d.1) (y - d.2) = Tz T x y := by
    intro x y hz
    have hzbox : (x, y) ∈ boxI kr kc := by
      rw [mem_boxI]
      by_contra hc
      exact hz (Tz_eq_zero T x y hc)
    have h := hpointeq (x, y) hzbox
    dsimp only at h
    have h0 : (Tz T x y - Tz T (x - d.1) (y - d.2)) ^ 2 = 0 := by nlinarith
    have := sq_eq_zero_iff.mp h0
    linarith
  obtain ⟨a0, b0, hab⟩ := hT
  have hiter : ∀ n : ℕ, Tz T ((a0 : ℤ) - n * d.1) ((b0 : ℤ) - n * d.2) = T a0 b0 := by
    intro n
    induction n with
    | zero => simpa using Tz_coe T a0 b0
    | succ m ih =>
      have hne : Tz T ((a0 : ℤ) - m * d.1) ((b0 : ℤ) - m * d.2) ≠ 0 := by
        rw [ih]; exact hab
      have hp := hper ((a0 : ℤ) - m * d.1) ((b0 : ℤ) - m * d.2) hne
      have e1 : (a0 : ℤ) - ((m : ℕ) + 1 : ℕ) * d.1 = ((a0 : ℤ) - m * d.1) - d.1 := by
        push_cast; ring
      have e2 : (b0 : ℤ) - ((m : ℕ) + 1 : ℕ) * d.2 = ((b0 : ℤ) - m * d.2) - d.2 := by
        push_cast; ring
      rw [e1, e2, hp, ih]
  have hd12 : d.1 ≠ 0 ∨ d.2 ≠ 0 := by
    by_contra hc
    push_neg at hc
    exact hd (by rw [Prod.ext_iff]; exact hc)
  have ha0 : (a0 : ℤ) < kr := by exact_mod_cast a0.isLt
  have ha0n : (0 : ℤ) ≤ (a0 : ℤ) := by positivity
  have hb0 : (b0 : ℤ) < kc := by exact_mod_cast b0.isLt
  have hb0n : (0 : ℤ) ≤ (b0 : ℤ) := by positivity
  have hcast : ((kr + kc : ℕ) : ℤ) = (kr : ℤ) + (kc : ℤ) := by push_cast; ring
  have hnn : (0 : ℤ) ≤ ((kr + kc : ℕ) : ℤ) := by positivity
  have hout : Tz T ((a0 : ℤ) - (kr + kc : ℕ) * d.1) ((b0 : ℤ) - (kr + kc : ℕ) * d.2)
      = 0 := by
    apply Tz_eq_zero
    intro hP
    obtain ⟨hx1, hx2, hy1, hy2⟩ := hP
    rcases hd12 with h | h
    · rcases h.lt_or_lt with hneg | hpos
      · have hmul : ((kr + kc : ℕ) : ℤ) * 1 ≤ ((kr + kc : ℕ) : ℤ) * (-d.1) :=
          mul_le_mul_of_nonneg_left (by omega) hnn
        rw [mul_one, mul_neg] at hmul
        linarith
      · have hmul : ((kr + kc : ℕ) : ℤ) * 1 ≤ ((kr + kc : ℕ) : ℤ) * d.1 :=
          mul_le_mul_of_nonneg_left (by omega) hnn
        rw [mul_one] at hmul
        linarith
    · rcases h.lt_or_lt with hneg | hpos
      · have hmul : ((kr + kc : ℕ) : ℤ) * 1 ≤ ((kr + kc : ℕ) : ℤ) * (-d.2) :=
          mul_le_mul_of_nonneg_left (by omega) hnn
        rw [mul_one, mul_neg] at hmul
        linarith
      · have hmul : ((kr + kc : ℕ) : ℤ) * 1 ≤ ((kr + kc : ℕ) : ℤ) * d.2 :=
          mul_le_mul_of_nonneg_left (by omega) hnn
        rw [mul_one] at hmul
        linarith
  rw [hiter (kr + kc)] at hout
  exact hab hout

/-- When a flat array has a strictly unique maximiser, `np_argmax` returns
it (first-occurrence tie-breaking is vacuous). -/
theorem np_argmax_eq_of_unique {n : ℕ} (g : Fin n → ℚ) (hn : 0 < n)
    (k0 : Fin n) (hmax : ∀ m, m ≠ k0 → g m < g k0) : np_argmax g hn = k0 := by
  have hset : Finset.univ.filter (fun k => ∀ m, g m ≤ g k) = {k0} := by
    ext k
    simp only [Finset.mem_filter, Finset.mem_univ, true_and, Finset.mem_singleton]
    constructor
    · intro hk
      by_contra hne
      exact absurd (hk k0) (not_le.mpr (hmax k hne))
    · rintro rfl
      intro m
      rcases eq_or_ne m k with rfl | hne
      · exact le_refl _
      · exact le_of_lt (hmax m hne)
  have hmem : np_argmax g hn ∈ Finset.univ.filter (fun k => ∀ m, g m ≤ g k) :=
    Finset.min'_mem _ _
  rw [hset] at hmem
  exact Finset.mem_singleton.mp hmem

/-- On the synthetic canvas, the full correlation surface is the template
autocorrelation evaluated at the lag difference between the output position
and the embedding position. -/
theorem corrFull_embed {mr mc kr kc : ℕ} (T : Fin kr → Fin kc → ℚ) (pr pc : ℕ)
    (h1 : pr + kr ≤ mr) (h2 : pc + kc ≤ mc)
    (u : Fin (mr + kr - 1)) (v : Fin (mc + kc - 1)) :
    corrFull (embed_template T pr pc) T u v =
      autocorr T ((u : ℤ) - ((kr : ℤ) - 1) - pr, (v : ℤ) - ((kc : ℤ) - 1) - pc) := by
  rw [corrFull]
  simp only [embed_template]
  have step1 : (∑ i : Fin mr, ∑ j : Fin mc,
      Tz T ((i : ℤ) - pr) ((j : ℤ) - pc) *
        Tz T ((i : ℤ) - ((u : ℤ) - ((kr : ℤ) - 1)))
             ((j : ℤ) - ((v : ℤ) - ((kc : ℤ) - 1)))) =
      ∑ z ∈ Finset.Ico (0 : ℤ) (mr : ℤ) ×ˢ Finset.Ico (0 : ℤ) (mc : ℤ),
        Tz T (z.1 - pr) (z.2 - pc) *
          Tz T (z.1 - ((u : ℤ) - ((kr : ℤ) - 1)))
               (z.2 - ((v : ℤ) - ((kc : ℤ) - 1))) := by
    rw [Finset.sum_product]
    calc ∑ i : Fin mr, ∑ j : Fin mc,
          Tz T ((i : ℤ) - pr) ((j : ℤ) - pc) *
            Tz T ((i : ℤ) - ((u : ℤ) - ((kr : ℤ) - 1)))
                 ((j : ℤ) - ((v : ℤ) - ((kc : ℤ) - 1)))
        = ∑ i : Fin mr, ∑ y ∈ Finset.Ico (0 : ℤ) (mc : ℤ),
            Tz T ((i : ℤ) - pr) (y - pc) *
              Tz T ((i : ℤ) - ((u : ℤ) - ((kr : ℤ) - 1)))
                   (y - ((v : ℤ) - ((kc : ℤ) - 1))) :=
          Finset.sum_congr rfl (fun i _ => sum_fin_Ico mc (fun y =>
            Tz T ((i : ℤ) - pr) (y - pc) *
              Tz T ((i : ℤ) - ((u : ℤ) - ((kr : ℤ) - 1)))
                   (y - ((v : ℤ) - ((kc : ℤ) - 1)))))
      _ = ∑ x ∈ Finset.Ico (0 : ℤ) (mr : ℤ), ∑ y ∈ Finset.Ico (0 : ℤ) (mc : ℤ),
            Tz T (x - pr) (y - pc) *
              Tz T (x - ((u : ℤ) - ((kr : ℤ) - 1)))
                   (y - ((v : ℤ) - ((kc : ℤ) - 1))) :=
          sum_fin_Ico mr (fun x => ∑ y ∈ Finset.Ico (0 : ℤ) (mc : ℤ),
            Tz T (x - pr) (y - pc) *
              Tz T (x - ((u : ℤ) - ((kr : ℤ) - 1)))
                   (y - ((v : ℤ) - ((kc : ℤ) - 1))))
  rw [step1, autocorr]
  have hinj : ∀ w ∈ boxI kr kc, ∀ w' ∈ boxI kr kc,
      (w.1 + (pr : ℤ), w.2 + (pc : ℤ)) = (w'.1 + (pr : ℤ), w'.2 + (pc : ℤ)) → w = w' := by
    intro w _ w' _ h
    rw [Prod.ext_iff] at h ⊢
    obtain ⟨ha, hb⟩ := h
    exact ⟨by omega, by omega⟩
  have himg : ∑ w ∈ boxI kr kc,
      Tz T w.1 w.2 *
        Tz T (w.1 - ((u : ℤ) - ((kr : ℤ) - 1) - pr)) (w.2 - ((v : ℤ) - ((kc : ℤ) - 1) - pc)) =
      ∑ z ∈ (boxI kr kc).image (fun w => (w.1 + (pr : ℤ), w.2 + (pc : ℤ))),
        Tz T (z.1 - pr) (z.2 - pc) *
          Tz T (z.1 - ((u : ℤ) - ((kr : ℤ) - 1)))
               (z.2 - ((v : ℤ) - ((kc : ℤ) - 1))) := by
    rw [Finset.sum_image hinj]
    refine Finset.sum_congr rfl (fun w _ => ?_)
    have e1 : w.1 + (pr : ℤ) - pr = w.1 := by ring
    have e2 : w.2 + (pc : ℤ) - pc = w.2 := by ring
    have e3 : w.1 + (pr : ℤ) - ((u : ℤ) - ((kr : ℤ) - 1)) =
        w.1 - ((u : ℤ) - ((kr : ℤ) - 1) - pr) := by ring
    have e4 : w.2 + (pc : ℤ) - ((v : ℤ) - ((kc : ℤ) - 1)) =
        w.2 - ((v : ℤ) - ((kc : ℤ) - 1) - pc) := by ring
    rw [e1, e2, e3, e4]
  rw [himg]
  refine (Finset.sum_subset ?_ ?_).symm
  · intro z hz
    rw [Finset.mem_image] at hz
    obtain ⟨w, hw, rfl⟩ := hz
    rw [mem_boxI] at hw
    rw [Finset.mem_product, Finset.mem_Ico, Finset.mem_Ico]
    obtain ⟨hw1, hw2, hw3, hw4⟩ := hw
    dsimp only
    constructor
    · constructor
      · omega
      · omega
    · constructor
      · omega
      · omega
  · intro z hz hnotin
    have hzero : Tz T (z.1 - pr) (z.2 - pc) = 0 := by
      apply Tz_eq_zero
      intro hP
      apply hnotin
      rw [Finset.mem_image]
      refine ⟨(z.1 - pr, z.2 - pc), ?_, ?_⟩
      · rw [mem_boxI]
        exact hP
      · show (z.1 - (pr : ℤ) + pr, z.2 - (pc : ℤ) + pc) = z
        rw [Prod.ext_iff]
        constructor <;> ring
    rw [hzero, zero_mul]

/-- Claim C2 (amended): embed a nonzero template noise-free at top-left
position `(pr, pc)` of a zero canvas.  The full-correlation centred
estimator returns, in (x, y) order, exactly
`(pc + kc - 1 - (mc + kc - 1)/2, pr + kr - 1 - (mr + kr - 1)/2)` — the
embedding offset measured from the anchor placement `⌈(m - k)/2⌉` per axis,
which is the exactly centred placement whenever `m - k` is even.  The peak
of the correlation surface is unique for a nonzero template, so the
first-occurrence tie-break never fires. -/
theorem compute_translation_vector_embedded {mr mc kr kc : ℕ}
    (T : Fin kr → Fin kc → ℚ) (pr pc : ℕ) (hT : ∃ a b, T a b ≠ 0)
    (h1 : pr + kr ≤ mr) (h2 : pc + kc ≤ mc) :
    compute_translation_vector (embed_template T pr pc : Fin mr → Fin mc → ℚ) T
      = some (((pc + kc - 1 : ℕ) : ℤ) - (((mc + kc - 1) / 2 : ℕ) : ℤ),
              ((pr + kr - 1 : ℕ) : ℤ) - (((mr + kr - 1) / 2 : ℕ) : ℤ)) := by
  obtain ⟨a0, b0, hab⟩ := hT
  have hkr : 0 < kr := a0.pos
  have hkc : 0 < kc := b0.pos
  have hmr : 0 < mr := by omega
  have hmc : 0 < mc := by omega
  have hpos : 0 < (mr + kr - 1) * (mc + kc - 1) := Nat.mul_pos (by omega) (by omega)
  have hv : pc + kc - 1 < mc + kc - 1 := by omega
  have hCpos : 0 < mc + kc - 1 := by omega
  have hk0lt : (pr + kr - 1) * (mc + kc - 1) + (pc + kc - 1) <
      (mr + kr - 1) * (mc + kc - 1) := by
    calc (pr + kr - 1) * (mc + kc - 1) + (pc + kc - 1)
        < (pr + kr - 1) * (mc + kc - 1) + (mc + kc - 1) := by omega
      _ = (pr + kr - 1 + 1) * (mc + kc - 1) := by ring
      _ ≤ (mr + kr - 1) * (mc + kc - 1) := Nat.mul_le_mul_right _ (by omega)
  have hdiv0 : ((pr + kr - 1) * (mc + kc - 1) + (pc + kc - 1)) / (mc + kc - 1)
      = pr + kr - 1 := by
    rw [Nat.add_comm, Nat.add_mul_div_right _ _ hCpos, Nat.div_eq_of_lt hv]
    omega
  have hmod0 : ((pr + kr - 1) * (mc + kc - 1) + (pc + kc - 1)) % (mc + kc - 1)
      = pc + kc - 1 := by
    rw [Nat.add_comm, Nat.add_mul_mod_self_right]
    exact Nat.mod_eq_of_lt hv
  have hmax : ∀ k : Fin ((mr + kr - 1) * (mc + kc - 1)),
      k ≠ ⟨(pr + kr - 1) * (mc + kc - 1) + (pc + kc - 1), hk0lt⟩ →
      flattenQ (corrFull (embed_template T pr pc) T) k <
        flattenQ (corrFull (embed_template T pr pc) T)
          ⟨(pr + kr - 1) * (mc + kc - 1) + (pc + kc - 1), hk0lt⟩ := by
    intro k hk
    simp only [flattenQ]
    simp only [corrFull_embed T pr pc h1 h2]
    rw [hdiv0, hmod0]
    have e0r : ((pr + kr - 1 : ℕ) : ℤ) - ((kr : ℤ) - 1) - (pr : ℤ) = 0 := by omega
    have e0c : ((pc + kc - 1 : ℕ) : ℤ) - ((kc : ℤ) - 1) - (pc : ℤ) = 0 := by omega
    rw [e0r, e0c]
    apply autocorr_lt_zero_lag T _ _ ⟨a0, b0, hab⟩
    intro heq
    rw [Prod.ext_iff] at heq
    obtain ⟨hr, hc⟩ := heq
    dsimp only at hr hc
    apply hk
    apply Fin.ext
    dsimp only
    have hdm := (Nat.div_add_mod k.val (mc + kc - 1)).symm
    have hq' : k.val / (mc + kc - 1) = pr + kr - 1 := by
      generalize hg : k.val / (mc + kc - 1) = q at hr
      omega
    have hr' : k.val % (mc + kc - 1) = pc + kc - 1 := by
      generalize hg : k.val % (mc + kc - 1) = r at hc
      omega
    calc k.val
        = (mc + kc - 1) * (k.val / (mc + kc - 1)) + k.val % (mc + kc - 1) := hdm
      _ = (mc + kc - 1) * (pr + kr - 1) + (pc + kc - 1) := by rw [hq', hr']
      _ = (pr + kr - 1) * (mc + kc - 1) + (pc + kc - 1) := by ring
  have hargmax : np_argmax (flattenQ (corrFull (embed_template T pr pc) T)) hpos
      = ⟨(pr + kr - 1) * (mc + kc - 1) + (pc + kc - 1), hk0lt⟩ :=
    np_argmax_eq_of_unique _ hpos _ hmax
  simp only [compute_translation_vector]
  rw [dif_pos hpos, hargmax]
  dsimp only
  rw [hdiv0, hmod0]

/-- Witness for the amended C2: a 1×1 template of value 1 embedded at (2, 2)
in a 3×3 zero canvas; the estimator returns (1, 1). -/
theorem compute_translation_vector_embedded_witness :
    (∃ a b : Fin 1, ((fun _ _ => (1 : ℚ)) : Fin 1 → Fin 1 → ℚ) a b ≠ 0) ∧
    2 + 1 ≤ 3 ∧ 2 + 1 ≤ 3 ∧
      compute_translation_vector
          (embed_template ((fun _ _ => (1 : ℚ)) : Fin 1 → Fin 1 → ℚ) 2 2 :
            Fin 3 → Fin 3 → ℚ) ((fun _ _ => (1 : ℚ)) : Fin 1 → Fin 1 → ℚ)
        = some (((2 + 1 - 1 : ℕ) : ℤ) - (((3 + 1 - 1) / 2 : ℕ) : ℤ),
                ((2 + 1 - 1 : ℕ) : ℤ) - (((3 + 1 - 1) / 2 : ℕ) : ℤ)) :=
  ⟨⟨0, 0, one_ne_zero⟩, by norm_num, by norm_num,
    compute_translation_vector_embedded ((fun _ _ => (1 : ℚ)) : Fin 1 → Fin 1 → ℚ)
      2 2 ⟨0, 0, one_ne_zero⟩ (by norm_num) (by norm_num)⟩

/-- Claim C2 counterexample: the claim quantifies over every template, but
for the zero 1×1 template embedded at (2, 2) of a 3×3 zero canvas — offset
(+1, +1) from the centred placement (1, 1) — the correlation surface is
identically zero, `np.argmax` returns its first (top-left' corner) entry
and the estimator yields (-1, -1), not the embedding offset (1, 1). -/
theorem np_argmax_const {n : ℕ} (c : ℚ) (hn : 0 < n) :
    np_argmax (fun _ => c) hn = ⟨0, hn⟩ := by
  apply le_antisymm
  · exact Finset.min'_le _ _
      (Finset.mem_filter.mpr ⟨Finset.mem_univ _, fun m => le_refl c⟩)
  · rw [Fin.le_def]
    exact Nat.zero_le _

theorem compute_translation_vector_zero_template_counterexample :
    compute_translation_vector
        (embed_template ((fun _ _ => (0 : ℚ)) : Fin 1 → Fin 1 → ℚ) 2 2 :
          Fin 3 → Fin 3 → ℚ) ((fun _ _ => (0 : ℚ)) : Fin 1 → Fin 1 → ℚ)
      = some (-1, -1) ∧ ((-1 : ℤ), (-1 : ℤ)) ≠ ((1 : ℤ), (1 : ℤ)) := by
  constructor
  · have hTz : ∀ x y : ℤ, Tz ((fun _ _ => (0 : ℚ)) : Fin 1 → Fin 1 → ℚ) x y = 0 := by
      intro x y
      rw [Tz]
      split_ifs <;> rfl
    have hflat : flattenQ (corrFull
        (embed_template ((fun _ _ => (0 : ℚ)) : Fin 1 → Fin 1 → ℚ) 2 2 :
          Fin 3 → Fin 3 → ℚ) ((fun _ _ => (0 : ℚ)) : Fin 1 → Fin 1 → ℚ))
        = fun _ => (0 : ℚ) := by
      funext k
      rw [flattenQ, corrFull]
      apply Finset.sum_eq_zero
      intro i _
      apply Finset.sum_eq_zero
      intro j _
      rw [hTz, mul_zero]
    have hpos : 0 < (3 + 1 - 1) * (3 + 1 - 1) := by norm_num
    simp only [compute_translation_vector]
    rw [dif_pos hpos, hflat, np_argmax_const 0 hpos]
    norm_num
  · intro h
    rw [Prod.ext_iff] at h
    exact absurd h.1 (by norm_num)
